import Mathlib

/-!
Verification of the repair-tracker reconciliation pipeline and the
SharePoint notes overlay store.

The development shallowly embeds the JavaScript source:

* Spreadsheet row fields are modelled as `String`, with `""` standing for an
  absent (`undefined`/`null`) or empty value; this is adequate because every
  operation the claims touch treats `undefined`, `null` and `""` identically
  (they are all falsy and every access is guarded by `|| ""` or a truthiness
  test).
* JavaScript `Map` objects are modelled as association lists in insertion
  order; `Map.set` replaces the value of an existing key in place and appends
  new keys, exactly as in JS.
* `Date` parsing is an oracle `parse : String → Option Int` (epoch
  milliseconds) and the clock is an explicit `now : Int`; arithmetic is exact.
* `trim`/`toUpperCase` are modelled character-wise over the ASCII fragment.
-/

namespace RepairTracker

/-- ASCII whitespace, the characters relevant to `String.prototype.trim`
on spreadsheet-sourced data. -/
def isWs (c : Char) : Bool :=
  c == ' ' || c == '\t' || c == '\n' || c == '\r' || c == '\x0b' || c == '\x0c'

/-- Lower-to-upper case pairs for ASCII letters. -/
def upTable : List (Char × Char) :=
  [('a','A'), ('b','B'), ('c','C'), ('d','D'), ('e','E'), ('f','F'), ('g','G'),
   ('h','H'), ('i','I'), ('j','J'), ('k','K'), ('l','L'), ('m','M'), ('n','N'),
   ('o','O'), ('p','P'), ('q','Q'), ('r','R'), ('s','S'), ('t','T'), ('u','U'),
   ('v','V'), ('w','W'), ('x','X'), ('y','Y'), ('z','Z')]

/-- ASCII upper-casing of one character, the fragment of JavaScript
`String.prototype.toUpperCase` exercised by the data model. -/
def upChar (c : Char) : Char :=
  match upTable.find? (fun p => p.1 == c) with
  | some p => p.2
  | none => c

theorem isWs_upChar (c : Char) : isWs (upChar c) = isWs c := by
  unfold upChar
  cases h : upTable.find? (fun p => p.1 == c) with
  | none => rfl
  | some p =>
    have hmem : p ∈ upTable := List.mem_of_find?_eq_some h
    have hc2 : c = p.1 := by
      have hb := List.find?_some h
      simp only [beq_iff_eq] at hb
      exact hb.symm
    have h1 : ∀ q ∈ upTable, isWs q.2 = false := by decide
    have h2 : ∀ q ∈ upTable, isWs q.1 = false := by decide
    rw [hc2, h1 p hmem, h2 p hmem]

theorem upChar_upChar (c : Char) : upChar (upChar c) = upChar c := by
  cases h : upTable.find? (fun p => p.1 == c) with
  | none =>
    have hc : upChar c = c := by unfold upChar; rw [h]
    rw [hc, hc]
  | some p =>
    have hmem : p ∈ upTable := List.mem_of_find?_eq_some h
    have hc : upChar c = p.2 := by unfold upChar; rw [h]
    have hfix : ∀ q ∈ upTable, upChar q.2 = q.2 := by decide
    rw [hc, hfix p hmem]

/-- Drop leading whitespace (the front half of JS `trim`). -/
def dropLead : List Char → List Char
  | [] => []
  | c :: cs => if isWs c then dropLead cs else c :: cs

/-- One step of trailing-whitespace removal: prepend `c` to an
already-trimmed tail, dropping `c` itself when the tail is empty and `c` is
whitespace. -/
def consTrail (c : Char) : List Char → List Char
  | [] => if isWs c then [] else [c]
  | d :: ds => c :: d :: ds

/-- Drop trailing whitespace (the back half of JS `trim`). -/
def dropTrail : List Char → List Char
  | [] => []
  | c :: cs => consTrail c (dropTrail cs)

theorem dropTrail_cons (c : Char) (cs : List Char) :
    dropTrail (c :: cs) = consTrail c (dropTrail cs) := rfl

theorem dropLead_idem (l : List Char) : dropLead (dropLead l) = dropLead l := by
  induction l with
  | nil => rfl
  | cons c cs ih =>
    by_cases h : isWs c = true
    · simp [dropLead, h, ih]
    · simp [dropLead, h]

theorem dropLead_eq_nil_iff (l : List Char) :
    dropLead l = [] ↔ ∀ c ∈ l, isWs c = true := by
  induction l with
  | nil => simp [dropLead]
  | cons c cs ih =>
    by_cases h : isWs c = true
    · simp [dropLead, h, ih]
    · simp [dropLead, h]

theorem dropTrail_eq_nil_iff (l : List Char) :
    dropTrail l = [] ↔ ∀ c ∈ l, isWs c = true := by
  induction l with
  | nil => simp [dropTrail]
  | cons c cs ih =>
    rw [List.forall_mem_cons, ← ih, dropTrail_cons]
    cases hd : dropTrail cs with
    | nil => by_cases h : isWs c = true <;> simp [consTrail, h]
    | cons d ds => simp [consTrail]

theorem dropTrail_idem (l : List Char) : dropTrail (dropTrail l) = dropTrail l := by
  induction l with
  | nil => rfl
  | cons c cs ih =>
    rw [dropTrail_cons]
    cases hd : dropTrail cs with
    | nil =>
      by_cases h : isWs c = true <;> simp [consTrail, h, dropTrail]
    | cons d ds =>
      rw [hd] at ih
      rw [show consTrail c (d :: ds) = c :: d :: ds from rfl, dropTrail_cons, ih]
      rfl

theorem dropLead_dropTrail (l : List Char) :
    dropLead (dropTrail l) = dropTrail (dropLead l) := by
  induction l with
  | nil => rfl
  | cons c cs ih =>
    rw [dropTrail_cons]
    by_cases h : isWs c = true
    · have hl : dropLead (c :: cs) = dropLead cs := by simp [dropLead, h]
      rw [hl]
      cases hd : dropTrail cs with
      | nil =>
        have hws := (dropTrail_eq_nil_iff cs).mp hd
        have hdl : dropLead cs = [] := (dropLead_eq_nil_iff cs).mpr hws
        simp [consTrail, h, hdl, dropTrail, dropLead]
      | cons d ds =>
        rw [hd] at ih
        simpa [consTrail, dropLead, h] using ih
    · have hl : dropLead (c :: cs) = c :: cs := by simp [dropLead, h]
      rw [hl, dropTrail_cons]
      cases hd : dropTrail cs with
      | nil => simp [consTrail, h, dropLead]
      | cons d ds => simp [consTrail, dropLead, h]

theorem dropLead_map_upChar (l : List Char) :
    dropLead (l.map upChar) = (dropLead l).map upChar := by
  induction l with
  | nil => rfl
  | cons c cs ih =>
    by_cases h : isWs c = true
    · simp [dropLead, isWs_upChar, h, ih]
    · simp [dropLead, isWs_upChar, h]

theorem dropTrail_map_upChar (l : List Char) :
    dropTrail (l.map upChar) = (dropTrail l).map upChar := by
  induction l with
  | nil => rfl
  | cons c cs ih =>
    rw [List.map_cons, dropTrail_cons, dropTrail_cons, ih]
    cases hd : dropTrail cs with
    | nil => by_cases h : isWs c = true <;> simp [consTrail, isWs_upChar, h]
    | cons d ds => simp [consTrail]

/-- Character-level JS `trim`: drop whitespace at both ends. -/
def trimChars (l : List Char) : List Char := dropLead (dropTrail l)

theorem trimChars_idem (l : List Char) : trimChars (trimChars l) = trimChars l := by
  unfold trimChars
  rw [← dropLead_dropTrail (dropTrail l), dropTrail_idem, dropLead_idem]

theorem trimChars_map_upChar (l : List Char) :
    trimChars (l.map upChar) = (trimChars l).map upChar := by
  unfold trimChars
  rw [dropTrail_map_upChar, dropLead_map_upChar]

/-- JS `String.prototype.trim`. -/
def jsTrim (s : String) : String := String.mk (trimChars s.data)

/-- JS `String.prototype.toUpperCase` (ASCII fragment). -/
def jsToUpper (s : String) : String := String.mk (s.data.map upChar)

/-- The identifier normalizer `(x) => (x ? String(x).trim().toUpperCase() : "")`
from `App.jsx` (`normalizeBarcode`) and
`SharePointNotesService._normBarcode`. -/
def normalize (x : String) : String :=
  if x = "" then "" else jsToUpper (jsTrim x)

theorem mk_data (l : List Char) : (String.mk l).data = l := rfl

theorem normalize_idem (x : String) : normalize (normalize x) = normalize x := by
  by_cases hx : x = ""
  · rw [hx]; rfl
  · by_cases h2 : jsToUpper (jsTrim x) = ""
    · have hnx : normalize x = "" := by rw [normalize, if_neg hx]; exact h2
      rw [hnx]; rfl
    · have hnx : normalize x = jsToUpper (jsTrim x) := by rw [normalize, if_neg hx]
      rw [hnx, normalize, if_neg h2]
      unfold jsToUpper jsTrim
      simp only [mk_data]
      rw [trimChars_map_upChar, trimChars_idem, List.map_map]
      have hfun : upChar ∘ upChar = upChar := funext upChar_upChar
      rw [hfun]

/-! ### JavaScript `Map` as an insertion-ordered association list -/

/-- `Map.get` — value of the first (and, in maps built by `mset`, only)
entry with the given key. -/
def mget {α : Type} (m : List (String × α)) (k : String) : Option α :=
  match m with
  | [] => none
  | p :: ps => if p.1 == k then some p.2 else mget ps k

/-- `Map.set` — replace in place when the key exists, else append. -/
def mset {α : Type} (m : List (String × α)) (k : String) (v : α) :
    List (String × α) :=
  match m with
  | [] => [(k, v)]
  | p :: ps => if p.1 == k then (k, v) :: ps else p :: mset ps k v

/-- `Map.delete`. -/
def mdel {α : Type} (m : List (String × α)) (k : String) : List (String × α) :=
  match m with
  | [] => []
  | p :: ps => if p.1 == k then mdel ps k else p :: mdel ps k

theorem mget_mset {α : Type} (m : List (String × α)) (k k' : String) (v : α) :
    mget (mset m k v) k' = if k' = k then some v else mget m k' := by
  induction m with
  | nil =>
    by_cases h : k' = k
    · subst h; simp [mset, mget]
    · simp [mset, mget, beq_iff_eq, h, Ne.symm h]
  | cons p ps ih =>
    by_cases hp : p.1 = k
    · have hm : mset (p :: ps) k v = (k, v) :: ps := by simp [mset, beq_iff_eq, hp]
      rw [hm]
      by_cases h : k' = k
      · subst h; simp [mget]
      · simp [mget, beq_iff_eq, h, Ne.symm h, hp]
    · have hm : mset (p :: ps) k v = p :: mset ps k v := by
        simp [mset, beq_iff_eq, hp]
      rw [hm]
      by_cases h : k' = k
      · subst h
        simp [mget, beq_iff_eq, hp, ih]
      · by_cases hq : p.1 = k'
        · simp [mget, beq_iff_eq, hq, h]
        · simp [mget, beq_iff_eq, hq, h, ih]

theorem mget_mdel {α : Type} (m : List (String × α)) (k k' : String) :
    mget (mdel m k) k' = if k' = k then none else mget m k' := by
  induction m with
  | nil => by_cases h : k' = k <;> simp [mdel, mget, h]
  | cons p ps ih =>
    by_cases hp : p.1 = k
    · have hm : mdel (p :: ps) k = mdel ps k := by simp [mdel, beq_iff_eq, hp]
      rw [hm, ih]
      by_cases h : k' = k
      · simp [h]
      · simp [h, mget, beq_iff_eq, hp, Ne.symm h]
    · have hm : mdel (p :: ps) k = p :: mdel ps k := by simp [mdel, beq_iff_eq, hp]
      rw [hm]
      by_cases hq : p.1 = k'
      · have hk : ¬k' = k := fun hh => hp (by rw [hq, hh])
        simp [mget, beq_iff_eq, hq, hk]
      · simp [mget, beq_iff_eq, hq, ih]

theorem mget_eq_none_iff {α : Type} (m : List (String × α)) (k : String) :
    mget m k = none ↔ ∀ p ∈ m, p.1 ≠ k := by
  induction m with
  | nil => simp [mget]
  | cons p ps ih =>
    by_cases hp : p.1 = k
    · simp [mget, beq_iff_eq, hp]
    · simp [mget, beq_iff_eq, hp, ih]

theorem mget_isSome_iff {α : Type} (m : List (String × α)) (k : String) :
    (∃ v, mget m k = some v) ↔ ∃ p ∈ m, p.1 = k := by
  induction m with
  | nil => simp [mget]
  | cons p ps ih =>
    by_cases hp : p.1 = k
    · simp [mget, beq_iff_eq, hp]
    · simp [mget, beq_iff_eq, hp, ih]

theorem mem_mset {α : Type} (m : List (String × α)) (k : String) (v : α)
    (q : String × α) (hq : q ∈ mset m k v) : q ∈ m ∨ q = (k, v) := by
  induction m with
  | nil =>
    simp [mset] at hq
    right; rw [hq]
  | cons p ps ih =>
    by_cases hp : p.1 = k
    · rw [show mset (p :: ps) k v = (k, v) :: ps from by
        simp [mset, beq_iff_eq, hp]] at hq
      rcases List.mem_cons.mp hq with h | h
      · right; rw [h]
      · left; exact List.mem_cons_of_mem _ h
    · rw [show mset (p :: ps) k v = p :: mset ps k v from by
        simp [mset, beq_iff_eq, hp]] at hq
      rcases List.mem_cons.mp hq with h | h
      · left; exact h ▸ List.mem_cons_self _ _
      · rcases ih h with h2 | h2
        · left; exact List.mem_cons_of_mem _ h2
        · right; exact h2

/-! ### Reconciliation data model (`App.jsx`, `baseCombinedData`) -/

/-- JS `a || b` on the string model (`""` is the only falsy string). -/
def jsOr (a b : String) : String := if a = "" then b else a

/-- Field access `t["X"]` on a possibly-absent row: `none` models the `{}`
fallback of `ticketMap.get(bc) || {}`, whose every field reads as falsy. -/
def optField {α : Type} (t : Option α) (f : α → String) : String :=
  match t with
  | some x => f x
  | none => ""

/-- One row of the ticket-list source (`TicketRecord`). Field names follow
the spreadsheet columns `Barcode`, `Location`, `Customer`, `Notes`,
`Creation Date`, `Order# to Bill`, `Billable`, `Created By`. -/
structure Ticket where
  barcode : String
  location : String
  customer : String
  notes : String
  creationDate : String
  orderToBill : String
  billable : String
  createdBy : String
deriving Repr, DecidableEq

/-- One row of the repair-report source (`ReportRecord`). Field names follow
the spreadsheet columns (`Barcode#`, `Ticket`, `Equipment`, `Description`,
`Notes`, `Repair Reason`, `Date In`, `Category`, `Customer`, `Repair Cost`,
`Repair Price`, `Repair Vendor`, `Last Order#`, `Reference#`, `Department`,
`Billable`, `User In`, `Customer Title`, `Repair Location`). -/
structure Report where
  barcodeNum : String
  ticket : String
  equipment : String
  description : String
  notes : String
  repairReason : String
  dateIn : String
  category : String
  customer : String
  repairCost : String
  repairPrice : String
  repairVendor : String
  lastOrderNum : String
  referenceNum : String
  department : String
  billable : String
  userIn : String
  customerTitle : String
  repairLocation : String
deriving Repr, DecidableEq

/-- One entry of the category→owner mapping artifact
(`{category, pm, department, category_text}`). -/
structure MappingEntry where
  category : String
  pm : String
  department : String
  categoryText : String
deriving Repr, DecidableEq

/-- The value stored in `categoryToPM`. -/
structure PMInfo where
  pm : String
  department : String
  categoryText : String
deriving Repr, DecidableEq

/-- `ticketMap` — `ticketData.forEach(t => { const bc = normalizeBarcode(
t["Barcode"]); if (bc) ticketMap.set(bc, t); })`. -/
def ticketMap (tickets : List Ticket) : List (String × Ticket) :=
  tickets.foldl (fun m t =>
    let bc := normalize t.barcode
    if bc ≠ "" then mset m bc t else m) []

/-- `categoryToPM` — keeps only entries with truthy `category` and truthy
`pm` (`if (m.category && m.pm)`), keyed by `category.trim().toUpperCase()`. -/
def categoryToPM (mapping : List MappingEntry) : List (String × PMInfo) :=
  mapping.foldl (fun acc m =>
    if m.category ≠ "" ∧ m.pm ≠ "" then
      mset acc (jsToUpper (jsTrim m.category))
        ⟨m.pm, jsOr m.department "", jsOr m.categoryText ""⟩
    else acc) []

/-- Ceiling division by one day of milliseconds, the exact-arithmetic model
of `Math.ceil(ms / (1000 * 60 * 60 * 24))`. -/
def ceilDay (ms : Nat) : Nat := (ms + 86399999) / 86400000

/-- `ageInDays` from `App.jsx` (`baseCombinedData`): `""` (here `none`) when
the input is falsy or unparseable, else
`Math.ceil(Math.abs(today - d) / 86400000)`. -/
def ageInDays (parse : String → Option Int) (now : Int) (dateStr : String) :
    Option Nat :=
  if dateStr = "" then none
  else
    match parse dateStr with
    | none => none
    | some d => some (ceilDay (now - d).natAbs)

/-- Decimal value of a digit run. -/
def digitsVal (l : List Char) : Nat :=
  l.foldl (fun acc c => 10 * acc + (c.toNat - 48)) 0

/-- `Math.floor(parseFloat(s))` for a character list over digits and dots
(the output alphabet of the cleaning step); `none` models `NaN`. `parseFloat`
reads the longest numeric prefix, so the floor is the value of the leading
digit run (or `0` for a string starting `.digit`). -/
def parseFloatFloor (l : List Char) : Option Nat :=
  match l with
  | [] => none
  | c :: rest =>
    if c.isDigit then some (digitsVal ((c :: rest).takeWhile Char.isDigit))
    else if c == '.' then
      match rest with
      | d :: _ => if d.isDigit then some 0 else none
      | [] => none
    else none

/-- `formatTicketNumber` from `App.jsx`: strip every character that is not a
digit or a dot, `parseFloat` the remainder, and return
`String(Math.floor(num))`, or `""` when the input is falsy or the parse is
`NaN`. -/
def formatTicketNumber (ticket : String) : String :=
  if ticket = "" then ""
  else
    match parseFloatFloor (ticket.data.filter (fun c => c.isDigit || c == '.')) with
    | none => ""
    | some n => toString n

/-- One output record of `baseCombinedData`. `assetRepairAge : Option Nat`
models the `number | ""` result of `ageInDays`; `ticketMatched` holds the
literal `"Yes"`/`"No"` string of `_TicketMatched`. -/
structure Merged where
  meetingNote : String
  requiresFollowUp : String
  assignedTo : String
  location : String
  repairTicket : String
  assetRepairAge : Option Nat
  barcodeNum : String
  equipment : String
  damageDescription : String
  ticketDescription : String
  repairReason : String
  lastOrderNum : String
  referenceNum : String
  customer : String
  customerTitle : String
  repairCost : String
  dateIn : String
  department : String
  category : String
  billable : String
  createdBy : String
  repairPrice : String
  repairVendor : String
  ticketMatched : String
deriving Repr, DecidableEq

/-- The body of `reportData.map((r) => { ... })` in `baseCombinedData`.
`_TicketMatched` is `"Yes"` iff `Object.keys(t).length > 0`, which holds iff
the map lookup succeeded (every stored ticket row is a non-empty object). -/
def mergeRow (parse : String → Option Int) (now : Int)
    (tm : List (String × Ticket)) (cm : List (String × PMInfo)) (r : Report) :
    Merged :=
  let bc := normalize r.barcodeNum
  let t := mget tm bc
  let category := jsTrim (jsOr r.category "")
  let mapInfo := mget cm (jsToUpper category)
  let assignedPM := match mapInfo with | some i => i.pm | none => ""
  { meetingNote := ""
    requiresFollowUp := ""
    assignedTo := assignedPM
    location := jsOr r.repairLocation (jsOr (optField t Ticket.location) "")
    repairTicket := formatTicketNumber r.ticket
    assetRepairAge := ageInDays parse now r.dateIn
    barcodeNum := jsOr r.barcodeNum (jsOr (optField t Ticket.barcode) "")
    equipment := "(" ++ r.equipment ++ ") - " ++ r.description
    damageDescription := jsOr r.notes ""
    ticketDescription := jsOr (optField t Ticket.notes) ""
    repairReason := jsOr r.repairReason ""
    lastOrderNum := jsOr r.lastOrderNum (jsOr (optField t Ticket.orderToBill) "")
    referenceNum := jsOr r.referenceNum ""
    customer := jsOr r.customer (jsOr (optField t Ticket.customer) "")
    customerTitle := jsOr r.customerTitle ""
    repairCost := jsOr r.repairCost "0"
    dateIn := jsOr r.dateIn (jsOr (optField t Ticket.creationDate) "")
    department := jsOr r.department ""
    category := jsOr r.category ""
    billable := jsOr (optField t Ticket.billable) (jsOr r.billable "")
    createdBy := jsOr (optField t Ticket.createdBy) (jsOr r.userIn "")
    repairPrice := jsOr r.repairPrice "0"
    repairVendor := jsOr r.repairVendor ""
    ticketMatched := match t with | some _ => "Yes" | none => "No" }

/-- JS `Set.add` — insert if not already present, preserving insertion order. -/
def setAdd (s : List String) (x : String) : List String :=
  if x ∈ s then s else s ++ [x]

/-- One step of accumulating the `unmatchedSet` during the `reportData.map`
pass: `if (category && !assignedPM) unmatchedSet.add(category)`. -/
def unmatchedStep (cm : List (String × PMInfo)) (s : List String)
    (r : Report) : List String :=
  let category := jsTrim (jsOr r.category "")
  let mapInfo := mget cm (jsToUpper category)
  let assignedPM := match mapInfo with | some i => i.pm | none => ""
  if category ≠ "" ∧ assignedPM = "" then setAdd s category else s

/-- The `unmatchedSet` accumulated during the `reportData.map` pass. -/
def unmatchedFold (cm : List (String × PMInfo)) (reports : List Report) :
    List String :=
  reports.foldl (unmatchedStep cm) []

theorem unmatchedStep_eq (cm : List (String × PMInfo)) (s : List String)
    (r : Report) :
    unmatchedStep cm s r =
      if jsTrim (jsOr r.category "") ≠ "" ∧
          (match mget cm (jsToUpper (jsTrim (jsOr r.category ""))) with
            | some i => i.pm | none => "") = ""
      then setAdd s (jsTrim (jsOr r.category "")) else s := rfl

/-- The result of one reconciliation pass: the merged records and
`Array.from(unmatchedSet).sort()`. -/
structure ReconcileResult where
  records : List Merged
  unmatchedCategories : List String
deriving Repr, DecidableEq

/-- `baseCombinedData` from `App.jsx`: the left join of reports against the
ticket index and category index, plus the sorted unmatched-category list.
The early return on an empty report set is modelled faithfully. -/
def reconcile (parse : String → Option Int) (now : Int)
    (tickets : List Ticket) (reports : List Report)
    (mapping : List MappingEntry) : ReconcileResult :=
  if reports.isEmpty then ⟨[], []⟩
  else
    ⟨reports.map (mergeRow parse now (ticketMap tickets) (categoryToPM mapping)),
     List.insertionSort (fun a b => a ≤ b)
       (unmatchedFold (categoryToPM mapping) reports)⟩

theorem reconcile_eq (parse : String → Option Int) (now : Int)
    (tickets : List Ticket) (reports : List Report)
    (mapping : List MappingEntry) :
    reconcile parse now tickets reports mapping =
      ⟨reports.map (mergeRow parse now (ticketMap tickets) (categoryToPM mapping)),
       List.insertionSort (fun a b => a ≤ b)
         (unmatchedFold (categoryToPM mapping) reports)⟩ := by
  cases reports with
  | nil => rfl
  | cons r rs => rfl

theorem records_eq (parse : String → Option Int) (now : Int)
    (tickets : List Ticket) (reports : List Report)
    (mapping : List MappingEntry) :
    (reconcile parse now tickets reports mapping).records =
      reports.map (mergeRow parse now (ticketMap tickets) (categoryToPM mapping)) := by
  rw [reconcile_eq]

theorem unmatched_eq (parse : String → Option Int) (now : Int)
    (tickets : List Ticket) (reports : List Report)
    (mapping : List MappingEntry) :
    (reconcile parse now tickets reports mapping).unmatchedCategories =
      List.insertionSort (fun a b => a ≤ b)
        (unmatchedFold (categoryToPM mapping) reports) := by
  rw [reconcile_eq]

/-- Fixtures used by witnesses: a date-parse oracle that recognises two ISO
dates (epoch milliseconds as JS would compute them) and nothing else. -/
def exParse : String → Option Int := fun s =>
  if s = "2024-01-01" then some 1704067200000
  else if s = "2024-02-01" then some 1706745600000
  else none

/-- Fixture ticket, mirroring the end-to-end scenario of the spec. -/
def exTicket : Ticket := ⟨"rv1", "Atlanta", "Acme", "", "", "", "Y", ""⟩

/-- Fixture report, mirroring the end-to-end scenario of the spec. -/
def exReport : Report :=
  ⟨"RV1", "1,002.00", "Cam", "4k", "cracked lens", "", "2024-01-01", "ELEC",
   "", "", "", "", "", "", "", "", "", "", ""⟩

/-- Fixture mapping entry. -/
def exEntry : MappingEntry := ⟨"ELEC", "Jane", "Video", ""⟩

/-- C1. For every ticket set, report set and mapping set, reconciliation
produces exactly one merged record per report row
(`records.length == reports.length`), and the `i`-th output record is the
merge of the `i`-th input report row — output order equals input order, with
no implicit sort. -/
theorem reconcile_join_complete (parse : String → Option Int) (now : Int)
    (tickets : List Ticket) (reports : List Report)
    (mapping : List MappingEntry) :
    (reconcile parse now tickets reports mapping).records.length =
        reports.length ∧
    ∀ i (h1 : i < (reconcile parse now tickets reports mapping).records.length)
      (h2 : i < reports.length),
      (reconcile parse now tickets reports mapping).records.get ⟨i, h1⟩ =
        mergeRow parse now (ticketMap tickets) (categoryToPM mapping)
          (reports.get ⟨i, h2⟩) := by
  constructor
  · rw [records_eq, List.length_map]
  · intro i h1
    revert h1
    rw [records_eq]
    intro h1 h2
    simp [List.get_eq_getElem, List.getElem_map]

/-- Witness for C1 at a concrete input. -/
theorem reconcile_join_complete_witness :
    (reconcile exParse 1704931200000 [exTicket] [exReport] [exEntry]).records.length = 1 ∧
    (reconcile exParse 1704931200000 [exTicket] [exReport] [exEntry]).records.get
        ⟨0, by rw [(reconcile_join_complete exParse 1704931200000 [exTicket] [exReport] [exEntry]).1]; decide⟩ =
      mergeRow exParse 1704931200000 (ticketMap [exTicket])
        (categoryToPM [exEntry]) exReport := by
  have h := reconcile_join_complete exParse 1704931200000 [exTicket]
    [exReport] [exEntry]
  exact ⟨h.1, h.2 0 _ (by decide)⟩

/-- C6. `ageInDays` never throws: it returns `""` (modelled `none`) exactly
when the date string is falsy or fails to parse, and otherwise returns
`ceil(abs(now - date) / 1 day)` as a non-negative integer (a `Nat`), also for
future dates. The hypothesis `parse "" = none` records that the empty string
is not a valid calendar date. -/
theorem ageInDays_spec (parse : String → Option Int) (now : Int)
    (hparse : parse "" = none) (s : String) :
    (parse s = none → ageInDays parse now s = none) ∧
    (∀ d, parse s = some d →
      ageInDays parse now s = some (ceilDay (now - d).natAbs)) := by
  constructor
  · intro h
    by_cases hs : s = ""
    · simp [ageInDays, hs]
    · simp [ageInDays, hs, h]
  · intro d hd
    have hs : s ≠ "" := by
      intro hh
      rw [hh, hparse] at hd
      cases hd
  
    simp [ageInDays, hs, hd]

/-- Witness for C6: with the clock fixed at 2024-01-11T00:00:00Z,
`ageInDays("2024-01-01") = 10`; an unparseable string and the empty string
give `""`; a future date (2024-02-01) still gives a non-negative integer. -/
theorem ageInDays_spec_witness :
    ageInDays exParse 1704931200000 "2024-01-01" = some 10 ∧
    ageInDays exParse 1704931200000 "not a date" = none ∧
    ageInDays exParse 1704931200000 "" = none ∧
    ageInDays exParse 1704931200000 "2024-02-01" = some 21 := by
  refine ⟨?_, ?_, ?_, ?_⟩
  · rw [(ageInDays_spec exParse 1704931200000 rfl "2024-01-01").2
      1704067200000 rfl]
    decide
  · exact (ageInDays_spec exParse 1704931200000 rfl "not a date").1 rfl
  · exact (ageInDays_spec exParse 1704931200000 rfl "").1 rfl
  · rw [(ageInDays_spec exParse 1704931200000 rfl "2024-02-01").2
      1706745600000 rfl]
    decide

theorem ticketMap_aux (tickets : List Ticket) (m : List (String × Ticket))
    (hm : ∀ p ∈ m, p.1 ≠ "") :
    ∀ p ∈ tickets.foldl (fun m t =>
      let bc := normalize t.barcode
      if bc ≠ "" then mset m bc t else m) m, p.1 ≠ "" := by
  induction tickets generalizing m with
  | nil => exact hm
  | cons t ts ih =>
    simp only [List.foldl_cons]
    apply ih
    intro p hp
    by_cases hbc : normalize t.barcode ≠ ""
    · simp only [if_pos hbc] at hp
      rcases mem_mset _ _ _ _ hp with h | h
      · exact hm p h
      · rw [h]; exact hbc
    · simp only [if_neg hbc] at hp
      exact hm p hp

theorem mget_ticketMap_empty (tickets : List Ticket) :
    mget (ticketMap tickets) "" = none := by
  rw [mget_eq_none_iff]
  intro p hp
  exact ticketMap_aux tickets [] (by simp) p hp

/-- C7. Every merged record's `Repair Ticket` field is
`formatTicketNumber(report.Ticket)` (the spec's `canonicalTicketNumber`), and
`formatTicketNumber` meets the four canonicalization examples:
`"1,234.00" ↦ "1234"`, `"abc" ↦ ""`, `"" ↦ ""`, `"42" ↦ "42"`. -/
theorem repairTicket_canonical :
    (∀ (parse : String → Option Int) (now : Int) (tickets : List Ticket)
      (reports : List Report) (mapping : List MappingEntry) i
      (h1 : i < (reconcile parse now tickets reports mapping).records.length)
      (h2 : i < reports.length),
      ((reconcile parse now tickets reports mapping).records.get
          ⟨i, h1⟩).repairTicket =
        formatTicketNumber (reports.get ⟨i, h2⟩).ticket) ∧
    formatTicketNumber "1,234.00" = "1234" ∧
    formatTicketNumber "abc" = "" ∧
    formatTicketNumber "" = "" ∧
    formatTicketNumber "42" = "42" := by
  refine ⟨?_, by decide, by decide, by decide, by decide⟩
  intro parse now tickets reports mapping i h1
  revert h1
  rw [records_eq]
  intro h1 h2
  simp [List.get_eq_getElem, List.getElem_map, mergeRow]

/-- Witness for C7 at a concrete input: `exReport.Ticket = "1,002.00"`
canonicalizes to `"1002"`. -/
theorem repairTicket_canonical_witness :
    ((reconcile exParse 1704931200000 [exTicket] [exReport]
        [exEntry]).records.get ⟨0, by rw [records_eq]; decide⟩).repairTicket =
      formatTicketNumber "1,002.00" ∧
    formatTicketNumber "1,002.00" = "1002" := by
  constructor
  · exact repairTicket_canonical.1 exParse 1704931200000 [exTicket] [exReport]
      [exEntry] 0 _ (by decide)
  · decide

/-- C8. The `Billable` field is ticket-first: it takes the matched ticket's
`Billable` when non-empty, else the report's `Billable`, else `""` — the
reverse of the report-first precedence used by the other fallback fields
(shown for contrast on `Customer`). -/
theorem billable_ticket_first (parse : String → Option Int) (now : Int)
    (tickets : List Ticket) (reports : List Report)
    (mapping : List MappingEntry) (i : Nat)
    (h1 : i < (reconcile parse now tickets reports mapping).records.length)
    (h2 : i < reports.length) :
    ((reconcile parse now tickets reports mapping).records.get
        ⟨i, h1⟩).billable =
      (if optField (mget (ticketMap tickets)
            (normalize (reports.get ⟨i, h2⟩).barcodeNum)) Ticket.billable ≠ ""
        then optField (mget (ticketMap tickets)
            (normalize (reports.get ⟨i, h2⟩).barcodeNum)) Ticket.billable
        else if (reports.get ⟨i, h2⟩).billable ≠ ""
          then (reports.get ⟨i, h2⟩).billable else "") ∧
    ((reconcile parse now tickets reports mapping).records.get
        ⟨i, h1⟩).customer =
      (if (reports.get ⟨i, h2⟩).customer ≠ "" then (reports.get ⟨i, h2⟩).customer
        else if optField (mget (ticketMap tickets)
            (normalize (reports.get ⟨i, h2⟩).barcodeNum)) Ticket.customer ≠ ""
          then optField (mget (ticketMap tickets)
            (normalize (reports.get ⟨i, h2⟩).barcodeNum)) Ticket.customer
          else "") := by
  revert h1
  rw [records_eq]
  intro h1
  simp only [List.get_eq_getElem, List.getElem_map, mergeRow]
  constructor
  · by_cases ha : optField (mget (ticketMap tickets)
        (normalize reports[i].barcodeNum)) Ticket.billable = "" <;>
      by_cases hb : reports[i].billable = "" <;>
      simp [jsOr, ha, hb]
  · by_cases ha : reports[i].customer = "" <;>
      by_cases hb : optField (mget (ticketMap tickets)
        (normalize reports[i].barcodeNum)) Ticket.customer = "" <;>
      simp [jsOr, ha, hb]

/-- Witness for C8: with `exTicket.Billable = "Y"` and an empty report
`Billable`, the merged record's `Billable` is `"Y"`. -/
theorem billable_ticket_first_witness :
    ((reconcile exParse 1704931200000 [exTicket] [exReport]
        [exEntry]).records.get ⟨0, by rw [records_eq]; decide⟩).billable = "Y" := by
  rw [(billable_ticket_first exParse 1704931200000 [exTicket] [exReport]
    [exEntry] 0 _ (by decide)).1]
  decide

/-- C10. The output `Barcode#` equals the report row's raw `Barcode#` when
truthy and `""` otherwise; the `t["Barcode"]` fallback is unreachable because
whenever the report's `Barcode#` is falsy the ticket lookup misses (the
ticket index holds no empty key). -/
theorem barcode_passthrough (parse : String → Option Int) (now : Int)
    (tickets : List Ticket) (reports : List Report)
    (mapping : List MappingEntry) (i : Nat)
    (h1 : i < (reconcile parse now tickets reports mapping).records.length)
    (h2 : i < reports.length) :
    ((reconcile parse now tickets reports mapping).records.get
        ⟨i, h1⟩).barcodeNum =
      (if (reports.get ⟨i, h2⟩).barcodeNum = "" then ""
        else (reports.get ⟨i, h2⟩).barcodeNum) ∧
    ((reports.get ⟨i, h2⟩).barcodeNum = "" →
      mget (ticketMap tickets) (normalize (reports.get ⟨i, h2⟩).barcodeNum) =
        none) := by
  revert h1
  rw [records_eq]
  intro h1
  have hmap : mget (ticketMap tickets) "" = none := mget_ticketMap_empty tickets
  simp only [List.get_eq_getElem, List.getElem_map, mergeRow]
  constructor
  · by_cases hb : reports[i].barcodeNum = ""
    · simp [jsOr, hb, normalize, hmap, optField]
    · simp [jsOr, hb]
  · intro hb
    rw [hb]
    simpa [normalize] using hmap

/-- Witness for C10 at a concrete input. -/
theorem barcode_passthrough_witness :
    ((reconcile exParse 1704931200000 [exTicket] [exReport]
        [exEntry]).records.get ⟨0, by rw [records_eq]; decide⟩).barcodeNum =
      "RV1" := by
  rw [(barcode_passthrough exParse 1704931200000 [exTicket] [exReport]
    [exEntry] 0 _ (by decide)).1]
  decide

theorem exists_mget_mset {α : Type} (m : List (String × α)) (k k' : String)
    (v : α) :
    (∃ w, mget (mset m k v) k' = some w) ↔ (k' = k ∨ ∃ w, mget m k' = some w) := by
  by_cases h : k' = k <;> simp [mget_mset, h]

theorem ticketMap_some_aux (tickets : List Ticket)
    (m : List (String × Ticket)) (k : String) :
    (∃ t, mget (tickets.foldl (fun m t =>
      let bc := normalize t.barcode
      if bc ≠ "" then mset m bc t else m) m) k = some t) ↔
    ((∃ t, mget m k = some t) ∨
      (k ≠ "" ∧ ∃ t ∈ tickets, normalize t.barcode = k)) := by
  induction tickets generalizing m with
  | nil => simp
  | cons t ts ih =>
    simp only [List.foldl_cons]
    rw [ih]
    by_cases hbc : normalize t.barcode ≠ ""
    · simp only [if_pos hbc, exists_mget_mset]
      constructor
      · rintro ((hk | hA) | ⟨hne, x, hx, hxk⟩)
        · exact Or.inr ⟨hk ▸ hbc, t, List.mem_cons_self t ts, hk.symm⟩
        · exact Or.inl hA
        · exact Or.inr ⟨hne, x, List.mem_cons_of_mem t hx, hxk⟩
      · rintro (hA | ⟨hne, x, hx, hxk⟩)
        · exact Or.inl (Or.inr hA)
        · rcases List.mem_cons.mp hx with h | h
          · exact Or.inl (Or.inl (by rw [← hxk, h]))
          · exact Or.inr ⟨hne, x, h, hxk⟩
    · simp only [if_neg hbc]
      push_neg at hbc
      constructor
      · rintro (hA | ⟨hne, x, hx, hxk⟩)
        · exact Or.inl hA
        · exact Or.inr ⟨hne, x, List.mem_cons_of_mem t hx, hxk⟩
      · rintro (hA | ⟨hne, x, hx, hxk⟩)
        · exact Or.inl hA
        · rcases List.mem_cons.mp hx with h | h
          · exact (hne (by rw [← hxk, h, hbc])).elim
          · exact Or.inr ⟨hne, x, h, hxk⟩

theorem mget_ticketMap_some_iff (tickets : List Ticket) (k : String) :
    (∃ t, mget (ticketMap tickets) k = some t) ↔
      (k ≠ "" ∧ ∃ t ∈ tickets, normalize t.barcode = k) := by
  constructor
  · intro hx
    rcases (ticketMap_some_aux tickets [] k).mp hx with h | h
    · rcases h with ⟨v, hv⟩
      simp [mget] at hv
    · exact h
  · intro hx
    exact (ticketMap_some_aux tickets [] k).mpr (Or.inr hx)

theorem normalize_merged_barcode (parse : String → Option Int) (now : Int)
    (tickets : List Ticket) (cm : List (String × PMInfo)) (r : Report) :
    normalize ((mergeRow parse now (ticketMap tickets) cm r).barcodeNum) =
      normalize r.barcodeNum := by
  by_cases hb : r.barcodeNum = ""
  · simp [mergeRow, jsOr, hb, normalize, mget_ticketMap_empty, optField]
  · simp [mergeRow, jsOr, hb]

/-- C2 (amended). `_TicketMatched = "Yes"` iff the record's normalized
`Barcode#` is non-empty AND some loaded ticket's normalized `Barcode` equals
it. (The original claim omitted the non-emptiness condition: tickets whose
barcode normalizes to `""` are skipped when the ticket index is built, so a
report row whose identifier normalizes to `""` never matches.) -/
theorem ticketMatched_iff (parse : String → Option Int) (now : Int)
    (tickets : List Ticket) (reports : List Report)
    (mapping : List MappingEntry) (i : Nat)
    (h1 : i < (reconcile parse now tickets reports mapping).records.length)
    (h2 : i < reports.length) :
    ((reconcile parse now tickets reports mapping).records.get
        ⟨i, h1⟩).ticketMatched = "Yes" ↔
      (normalize ((reconcile parse now tickets reports mapping).records.get
          ⟨i, h1⟩).barcodeNum ≠ "" ∧
        ∃ t ∈ tickets, normalize t.barcode =
          normalize ((reconcile parse now tickets reports
            mapping).records.get ⟨i, h1⟩).barcodeNum) := by
  revert h1
  rw [records_eq]
  intro h1
  simp only [List.get_eq_getElem, List.getElem_map]
  rw [normalize_merged_barcode]
  have hiff := mget_ticketMap_some_iff tickets
    (normalize (reports[i]).barcodeNum)
  cases hm : mget (ticketMap tickets) (normalize (reports[i]).barcodeNum) with
  | none =>
    simp only [mergeRow, hm]
    constructor
    · intro hy
      exact absurd hy (by decide)
    · rintro ⟨hne, x, hx, hxk⟩
      rcases hiff.mpr ⟨hne, x, hx, hxk⟩ with ⟨v, hv⟩
      rw [hm] at hv
      simp at hv
  | some tk =>
    simp only [mergeRow, hm]
    constructor
    · intro _
      exact hiff.mp ⟨tk, hm⟩
    · intro _
      trivial

/-- Fixture ticket whose barcode normalizes to the empty string. -/
def cexTicket : Ticket := ⟨"", "", "", "", "", "", "", ""⟩

/-- Fixture report row with an empty identifier. -/
def cexReport : Report :=
  ⟨"", "", "", "", "", "", "", "", "", "", "", "", "", "", "", "", "", "", ""⟩

/-- Counterexample to C2 as stated: with one ticket whose `Barcode`
normalizes to `""` and one report row whose `Barcode#` normalizes to `""`,
some ticket's normalized barcode equals the record's normalized identifier,
yet `_TicketMatched` is `"No"`. -/
theorem ticketMatched_iff_cex :
    ¬((((reconcile exParse 0 [cexTicket] [cexReport] []).records.get
        ⟨0, by rw [records_eq]; decide⟩).ticketMatched = "Yes") ↔
      ∃ t ∈ [cexTicket], normalize t.barcode =
        normalize (((reconcile exParse 0 [cexTicket] [cexReport]
          []).records.get ⟨0, by rw [records_eq]; decide⟩).barcodeNum)) := by
  decide

/-- Witness for the amended C2 at a concrete input: `exTicket.Barcode = "rv1"`
matches `exReport["Barcode#"] = "RV1"` after normalization. -/
theorem ticketMatched_iff_witness :
    (((reconcile exParse 1704931200000 [exTicket] [exReport]
        [exEntry]).records.get
        ⟨0, by rw [records_eq]; decide⟩).ticketMatched = "Yes") := by
  exact (ticketMatched_iff exParse 1704931200000 [exTicket] [exReport]
    [exEntry] 0 (by rw [records_eq]; decide) (by decide)).mpr
    ⟨by decide, exTicket, by decide, by decide⟩

theorem mget_some_mem {α : Type} (m : List (String × α)) (k : String) (v : α)
    (h : mget m k = some v) : (k, v) ∈ m := by
  induction m with
  | nil => simp [mget] at h
  | cons p ps ih =>
    by_cases hp : p.1 = k
    · simp only [mget, beq_iff_eq, hp, if_pos, Option.some.injEq] at h
      have hpv : (k, v) = p := by
        cases p
        simp_all
      rw [hpv]
      exact List.mem_cons_self p ps
    · simp only [mget, beq_iff_eq, hp, if_neg, if_false] at h
      exact List.mem_cons_of_mem p (ih h)

theorem categoryToPM_pm_aux (mapping : List MappingEntry)
    (acc : List (String × PMInfo)) (hacc : ∀ p ∈ acc, p.2.pm ≠ "") :
    ∀ p ∈ mapping.foldl (fun acc m =>
      if m.category ≠ "" ∧ m.pm ≠ "" then
        mset acc (jsToUpper (jsTrim m.category))
          ⟨m.pm, jsOr m.department "", jsOr m.categoryText ""⟩
      else acc) acc, p.2.pm ≠ "" := by
  induction mapping generalizing acc with
  | nil => exact hacc
  | cons e es ih =>
    simp only [List.foldl_cons]
    apply ih
    intro p hp
    by_cases hc : e.category ≠ "" ∧ e.pm ≠ ""
    · rw [if_pos hc] at hp
      rcases mem_mset _ _ _ _ hp with h | h
      · exact hacc p h
      · rw [h]; exact hc.2
    · rw [if_neg hc] at hp
      exact hacc p hp

theorem categoryToPM_pm_ne (mapping : List MappingEntry) :
    ∀ p ∈ categoryToPM mapping, p.2.pm ≠ "" :=
  categoryToPM_pm_aux mapping [] (by simp)

/-- The `assignedPM` read out of the category index is empty iff the lookup
missed, because only entries with non-empty `pm` enter the index. -/
theorem assignedPM_empty_iff (mapping : List MappingEntry) (key : String) :
    ((match mget (categoryToPM mapping) key with
      | some i => i.pm | none => "") = "") ↔
      mget (categoryToPM mapping) key = none := by
  cases hm : mget (categoryToPM mapping) key with
  | none => simp
  | some i =>
    have hmem := mget_some_mem _ _ _ hm
    have hpm := categoryToPM_pm_ne mapping _ hmem
    simp at hpm
    simp [hpm]

theorem categoryToPM_none_aux (mapping : List MappingEntry)
    (acc : List (String × PMInfo)) (k : String) :
    mget (mapping.foldl (fun acc m =>
      if m.category ≠ "" ∧ m.pm ≠ "" then
        mset acc (jsToUpper (jsTrim m.category))
          ⟨m.pm, jsOr m.department "", jsOr m.categoryText ""⟩
      else acc) acc) k = none ↔
    (mget acc k = none ∧ ∀ m ∈ mapping,
      ¬(m.category ≠ "" ∧ m.pm ≠ "" ∧ jsToUpper (jsTrim m.category) = k)) := by
  induction mapping generalizing acc with
  | nil => simp
  | cons e es ih =>
    simp only [List.foldl_cons]
    rw [List.forall_mem_cons]
    by_cases hc : e.category ≠ "" ∧ e.pm ≠ ""
    · simp only [if_pos hc]
      rw [ih]
      have hmm : mget (mset acc (jsToUpper (jsTrim e.category))
          ⟨e.pm, jsOr e.department "", jsOr e.categoryText ""⟩) k = none ↔
          (¬k = jsToUpper (jsTrim e.category) ∧ mget acc k = none) := by
        rw [mget_mset]
        by_cases h : k = jsToUpper (jsTrim e.category) <;> simp [h]
      rw [hmm]
      constructor
      · rintro ⟨⟨hne, hacc⟩, hall⟩
        refine ⟨hacc, ?_, hall⟩
        rintro ⟨_, _, h3⟩
        exact hne h3.symm
      · rintro ⟨hacc, hhead, hall⟩
        refine ⟨⟨?_, hacc⟩, hall⟩
        intro hk
        exact hhead ⟨hc.1, hc.2, hk.symm⟩
    · simp only [if_neg hc]
      rw [ih]
      constructor
      · rintro ⟨hacc, hall⟩
        exact ⟨hacc, fun hb => hc ⟨hb.1, hb.2.1⟩, hall⟩
      · rintro ⟨hacc, _, hall⟩
        exact ⟨hacc, hall⟩

theorem mget_categoryToPM_none_iff (mapping : List MappingEntry) (k : String) :
    mget (categoryToPM mapping) k = none ↔
      ∀ m ∈ mapping,
        ¬(m.category ≠ "" ∧ m.pm ≠ "" ∧ jsToUpper (jsTrim m.category) = k) := by
  have h := categoryToPM_none_aux mapping [] k
  simpa [mget] using h

theorem mem_setAdd (s : List String) (x c : String) :
    c ∈ setAdd s x ↔ (c ∈ s ∨ c = x) := by
  by_cases h : x ∈ s
  · rw [setAdd, if_pos h]
    constructor
    · intro hh; exact Or.inl hh
    · rintro (hh | hh)
      · exact hh
      · rw [hh]; exact h
  · rw [setAdd, if_neg h]
    simp [List.mem_append]

theorem unmatchedFold_mem_aux (cm : List (String × PMInfo))
    (reports : List Report) (s : List String) (c : String) :
    c ∈ reports.foldl (unmatchedStep cm) s ↔
      (c ∈ s ∨ ∃ r ∈ reports, jsTrim (jsOr r.category "") = c ∧ c ≠ "" ∧
        (match mget cm (jsToUpper c) with | some i => i.pm | none => "") = "") := by
  induction reports generalizing s with
  | nil => simp
  | cons r rs ih =>
    simp only [List.foldl_cons]
    rw [ih]
    by_cases hc : jsTrim (jsOr r.category "") ≠ "" ∧
        (match mget cm (jsToUpper (jsTrim (jsOr r.category ""))) with
          | some i => i.pm | none => "") = ""
    · rw [show unmatchedStep cm s r = setAdd s (jsTrim (jsOr r.category ""))
        from by rw [unmatchedStep_eq, if_pos hc]]
      rw [mem_setAdd]
      constructor
      · rintro ((h | h) | ⟨x, hx, hxc, hne, hpm⟩)
        · exact Or.inl h
        · subst h
          exact Or.inr ⟨r, List.mem_cons_self r rs, rfl, hc.1, hc.2⟩
        · exact Or.inr ⟨x, List.mem_cons_of_mem r hx, hxc, hne, hpm⟩
      · rintro (h | ⟨x, hx, hxc, hne, hpm⟩)
        · exact Or.inl (Or.inl h)
        · rcases List.mem_cons.mp hx with hxr | hxr
          · exact Or.inl (Or.inr (by rw [← hxc, hxr]))
          · exact Or.inr ⟨x, hxr, hxc, hne, hpm⟩
    · rw [show unmatchedStep cm s r = s from by rw [unmatchedStep_eq, if_neg hc]]
      constructor
      · rintro (h | ⟨x, hx, hxc, hne, hpm⟩)
        · exact Or.inl h
        · exact Or.inr ⟨x, List.mem_cons_of_mem r hx, hxc, hne, hpm⟩
      · rintro (h | ⟨x, hx, hxc, hne, hpm⟩)
        · exact Or.inl h
        · rcases List.mem_cons.mp hx with hxr | hxr
          · have hcat : jsTrim (jsOr r.category "") = c := by
              rw [← hxr]; exact hxc
            exact absurd ⟨by rw [hcat]; exact hne,
              by rw [hcat]; exact hpm⟩ hc
          · exact Or.inr ⟨x, hxr, hxc, hne, hpm⟩

theorem mem_unmatchedFold (cm : List (String × PMInfo))
    (reports : List Report) (c : String) :
    c ∈ unmatchedFold cm reports ↔
      ∃ r ∈ reports, jsTrim (jsOr r.category "") = c ∧ c ≠ "" ∧
        (match mget cm (jsToUpper c) with | some i => i.pm | none => "") = "" := by
  have h := unmatchedFold_mem_aux cm reports [] c
  simpa using h

theorem setAdd_nodup (s : List String) (x : String) (h : s.Nodup) :
    (setAdd s x).Nodup := by
  by_cases hx : x ∈ s
  · rw [setAdd, if_pos hx]; exact h
  · rw [setAdd, if_neg hx, List.nodup_append]
    refine ⟨h, List.nodup_singleton x, ?_⟩
    intro a ha hb
    rw [List.mem_singleton] at hb
    exact hx (hb ▸ ha)

theorem unmatchedFold_nodup_aux (cm : List (String × PMInfo))
    (reports : List Report) (s : List String) (hs : s.Nodup) :
    (reports.foldl (unmatchedStep cm) s).Nodup := by
  induction reports generalizing s with
  | nil => exact hs
  | cons r rs ih =>
    simp only [List.foldl_cons]
    apply ih
    rw [unmatchedStep_eq]
    split
    · exact setAdd_nodup _ _ hs
    · exact hs

theorem unmatchedFold_nodup (cm : List (String × PMInfo))
    (reports : List Report) : (unmatchedFold cm reports).Nodup :=
  unmatchedFold_nodup_aux cm reports [] List.nodup_nil

/-- C3 (amended). A trimmed non-empty category `c` appears in
`unmatchedCategories` iff some report row's trimmed `Category` equals `c` and
no mapping entry **with non-empty category and non-empty owner** has
normalized category equal to `normalize c`; the list is deduplicated, sorted
ascending, and holds the categories in original (trimmed, unnormalized)
casing. (The original claim let an entry with empty owner count as existing;
the code skips such entries when building the index, so their categories are
still reported unmatched.) -/
theorem unmatchedCategories_spec (parse : String → Option Int) (now : Int)
    (tickets : List Ticket) (reports : List Report)
    (mapping : List MappingEntry) :
    (∀ c, c ∈ (reconcile parse now tickets reports
        mapping).unmatchedCategories ↔
      (c ≠ "" ∧ (∃ r ∈ reports, jsTrim (jsOr r.category "") = c) ∧
        ¬∃ m ∈ mapping, m.category ≠ "" ∧ m.pm ≠ "" ∧
          normalize m.category = normalize c)) ∧
    List.Sorted (fun a b => a ≤ b)
      (reconcile parse now tickets reports mapping).unmatchedCategories ∧
    (reconcile parse now tickets reports
      mapping).unmatchedCategories.Nodup := by
  rw [unmatched_eq]
  refine ⟨?_, List.sorted_insertionSort _ _, ?_⟩
  · intro c
    rw [List.mem_insertionSort, mem_unmatchedFold]
    constructor
    · rintro ⟨r, hr, hcat, hne, hpm⟩
      refine ⟨hne, ⟨r, hr, hcat⟩, ?_⟩
      rintro ⟨m, hm, hmc, hmp, hmeq⟩
      have hnone := (assignedPM_empty_iff mapping (jsToUpper c)).mp hpm
      have hall := (mget_categoryToPM_none_iff mapping (jsToUpper c)).mp hnone
      apply hall m hm
      refine ⟨hmc, hmp, ?_⟩
      have h1 : normalize m.category = jsToUpper (jsTrim m.category) := by
        rw [normalize, if_neg hmc]
      have htc : jsTrim c = c := by
        rw [← hcat]
        unfold jsTrim
        simp only [mk_data]
        rw [trimChars_idem]
      have h2 : normalize c = jsToUpper c := by
        rw [normalize, if_neg hne, htc]
      rw [← h1, ← h2]
      exact hmeq
    · rintro ⟨hne, ⟨r, hr, hcat⟩, hnotex⟩
      refine ⟨r, hr, hcat, hne, ?_⟩
      rw [assignedPM_empty_iff, mget_categoryToPM_none_iff]
      intro m hm
      rintro ⟨hmc, hmp, hmeq⟩
      apply hnotex
      refine ⟨m, hm, hmc, hmp, ?_⟩
      have h1 : normalize m.category = jsToUpper (jsTrim m.category) := by
        rw [normalize, if_neg hmc]
      have htc : jsTrim c = c := by
        rw [← hcat]
        unfold jsTrim
        simp only [mk_data]
        rw [trimChars_idem]
      have h2 : normalize c = jsToUpper c := by
        rw [normalize, if_neg hne, htc]
      rw [h1, h2]
      exact hmeq
  · exact (List.perm_insertionSort (fun a b => a ≤ b) _).nodup_iff.mpr
      (unmatchedFold_nodup _ _)

/-- Fixture report row whose `Category` is `"X"`. -/
def cexReportX : Report :=
  ⟨"", "", "", "", "", "", "", "X", "", "", "", "", "", "", "", "", "", "", ""⟩

/-- Fixture mapping entry for category `"X"` whose owner (`pm`) is empty. -/
def cexEntryX : MappingEntry := ⟨"X", "", "", ""⟩

/-- Counterexample to C3 as stated: a mapping entry for `"X"` exists (owner
empty), so per the claim `"X"` should not be unmatched, yet the code reports
it unmatched because entries with empty owner are skipped when the category
index is built. -/
theorem unmatchedCategories_cex :
    ¬(("X" ∈ (reconcile exParse 0 [] [cexReportX]
        [cexEntryX]).unmatchedCategories) ↔
      (("X" : String) ≠ "" ∧
        (∃ r ∈ [cexReportX], jsTrim (jsOr r.category "") = "X") ∧
        ¬∃ m ∈ [cexEntryX], normalize m.category = normalize "X")) := by
  decide

/-- Witness for the amended C3 at a concrete input: `"ELEC"` is unmatched
when the mapping is empty, and the returned list is sorted. -/
theorem unmatchedCategories_spec_witness :
    "ELEC" ∈ (reconcile exParse 0 [] [exReport] []).unmatchedCategories ∧
    List.Sorted (fun a b => a ≤ b)
      (reconcile exParse 0 [] [exReport] []).unmatchedCategories := by
  have h := unmatchedCategories_spec exParse 0 [] [exReport] []
  refine ⟨(h.1 "ELEC").mpr ⟨by decide, ⟨exReport, by decide, by decide⟩,
    by decide⟩, h.2.1⟩

/-! ### SharePoint notes overlay store (`SharePointNotesService.js`) -/

/-- One note record as cached and persisted: `{barcode, meetingNote,
requiresFollowUp, lastUpdated}`. The spec's `discussionNote` is
`meetingNote` ("Meeting Note") and its `followUpNote` is `requiresFollowUp`
("Requires Follow Up"); `lastUpdated` is an opaque ISO-timestamp string. -/
structure SPNote where
  barcode : String
  meetingNote : String
  requiresFollowUp : String
  lastUpdated : String
deriving Repr, DecidableEq

/-- The observable state of one `SharePointNotesService` instance plus its
external artifact: in-memory `notesCache`, pending `saveQueue`
(`none` marks a queued deletion), the `isSaving` latch, and the remote
workbook contents (`none` when the file has never been created). -/
structure SPState where
  notesCache : List (String × SPNote)
  saveQueue : List (String × Option SPNote)
  isSaving : Bool
  remote : Option (List SPNote)
deriving Repr, DecidableEq

/-- `x || ""` for an optional argument: `undefined`, `null` and `""` all
produce the default. -/
def jsOrOpt (x : Option String) (d : String) : String :=
  match x with
  | some s => if s = "" then d else s
  | none => d

/-- `updateNote(barcode, meetingNote, requiresFollowUp)`: no-op returning
`null` when the normalized key is empty; otherwise builds a fresh record
(`meetingNote || ""`, `requiresFollowUp || ""`, `lastUpdated = now`) and
stores it in the cache and the save queue. -/
def updateNote (st : SPState) (barcode : String)
    (meetingNote requiresFollowUp : Option String) (nowIso : String) :
    Option SPNote × SPState :=
  let key := normalize barcode
  if key = "" then (none, st)
  else
    let note : SPNote :=
      ⟨key, jsOrOpt meetingNote "", jsOrOpt requiresFollowUp "", nowIso⟩
    (some note,
      { st with
        notesCache := mset st.notesCache key note
        saveQueue := mset st.saveQueue key (some note) })

/-- `deleteNote(barcode)`: no-op when the normalized key is empty; otherwise
removes the key from the cache and queues a deletion marker. -/
def deleteNote (st : SPState) (barcode : String) : SPState :=
  let key := normalize barcode
  if key = "" then st
  else
    { st with
      notesCache := mdel st.notesCache key
      saveQueue := mset st.saveQueue key none }

/-- Result of the awaited upload inside `saveToSharePoint`. -/
inductive FlushOutcome where
  | ok
  | fail
deriving Repr, DecidableEq

/-- Apply one queued change to the cache: `note === null` deletes, else sets. -/
def applyChange (c : List (String × SPNote)) (k : String) (n : Option SPNote) :
    List (String × SPNote) :=
  match n with
  | none => mdel c k
  | some note => mset c k note

/-- `batch.forEach((note, bc) => { if (note === null) cache.delete(bc); else
cache.set(bc, note); })`. -/
def applyBatch (cache : List (String × SPNote))
    (batch : List (String × Option SPNote)) : List (String × SPNote) :=
  batch.foldl (fun c p => applyChange c p.1 p.2) cache

/-- `batch.forEach((note, bc) => saveQueue.set(bc, note))` into the cleared
queue (the `catch` branch of `saveToSharePoint`). -/
def requeue (batch : List (String × Option SPNote)) :
    List (String × Option SPNote) :=
  batch.foldl (fun q p => mset q p.1 p.2) []

/-- `Array.from(cache.values())` — the rows written to the workbook. -/
def cacheRows (cache : List (String × SPNote)) : List SPNote :=
  cache.map (fun p => p.2)

/-- `saveToSharePoint()`: no-op when the queue is empty or a save is in
flight; otherwise snapshots and clears the queue, applies the batch to the
cache, and uploads the whole cache as rows. On upload failure the batch is
re-queued and the remote artifact is unchanged; `isSaving` is reset in
`finally` either way. -/
def saveToSharePoint (st : SPState) (outcome : FlushOutcome) : SPState :=
  if st.saveQueue.isEmpty then st
  else if st.isSaving then st
  else
    let batch := st.saveQueue
    let cache1 := applyBatch st.notesCache batch
    match outcome with
    | FlushOutcome.ok =>
      ⟨cache1, [], false, some (cacheRows cache1)⟩
    | FlushOutcome.fail =>
      ⟨cache1, requeue batch, false, st.remote⟩

/-- `_noteShape` applied to a persisted row on `loadAllNotes`: the barcode is
re-normalized and both note fields are trimmed. -/
def noteShape (row : SPNote) : SPNote :=
  ⟨normalize row.barcode, jsTrim row.meetingNote, jsTrim row.requiresFollowUp,
   row.lastUpdated⟩

/-- `(rows || []).forEach(r => { const shaped = _noteShape(r); if
(shaped.barcode) map.set(shaped.barcode, shaped); })`. -/
def loadedMap (rows : List SPNote) : List (String × SPNote) :=
  rows.foldl (fun m row =>
    let shaped := noteShape row
    if shaped.barcode ≠ "" then mset m shaped.barcode shaped else m) []

/-- `loadAllNotes()`: replaces the cache from the remote artifact; a missing
artifact ("not found") yields an empty cache rather than an error. Returns
the new state and the returned map. -/
def loadAllNotes (st : SPState) : SPState × List (String × SPNote) :=
  match st.remote with
  | none => ({ st with notesCache := [] }, [])
  | some rows =>
    let m := loadedMap rows
    ({ st with notesCache := m }, m)

/-- C9. Calling `updateNote` or `deleteNote` with a barcode whose
normalization is empty (empty or whitespace-only; `null`/`undefined` also
normalize to `""`) is a no-op: the state is unchanged and `updateNote`
returns `null`. -/
theorem emptyKey_noop (st : SPState) (bc : String) (m f : Option String)
    (nowIso : String) (hk : normalize bc = "") :
    updateNote st bc m f nowIso = (none, st) ∧ deleteNote st bc = st := by
  constructor
  · simp [updateNote, hk]
  · simp [deleteNote, hk]

/-- Witness for C9: a whitespace-only barcode leaves a non-trivial store
untouched. -/
theorem emptyKey_noop_witness :
    updateNote ⟨[("B", ⟨"B", "x", "y", "t"⟩)], [], false, none⟩ " "
        (some "z") none "t2" =
      (none, ⟨[("B", ⟨"B", "x", "y", "t"⟩)], [], false, none⟩) ∧
    deleteNote ⟨[("B", ⟨"B", "x", "y", "t"⟩)], [], false, none⟩ " " =
      ⟨[("B", ⟨"B", "x", "y", "t"⟩)], [], false, none⟩ :=
  emptyKey_noop _ " " (some "z") none "t2" (by decide)

/-- Invariant of cache entries reachable through the service's own
operations: each entry's stored barcode equals its key, and keys are
normalized, non-empty and distinct. -/
def WFCache (cache : List (String × SPNote)) : Prop :=
  (∀ p ∈ cache, p.2.barcode = p.1 ∧ normalize p.1 = p.1 ∧ p.1 ≠ "") ∧
  (cache.map (fun p => p.1)).Nodup

/-- The analogous invariant for the save queue (`none` entries are queued
deletions). -/
def WFQueue (q : List (String × Option SPNote)) : Prop :=
  (∀ p ∈ q, p.2.all (fun n => n.barcode == p.1) = true ∧
    normalize p.1 = p.1 ∧ p.1 ≠ "") ∧
  (q.map (fun p => p.1)).Nodup

/-- Reachable-state invariant of the notes service. -/
def WFState (st : SPState) : Prop :=
  WFCache st.notesCache ∧ WFQueue st.saveQueue

theorem mem_mdel {α : Type} (m : List (String × α)) (k : String)
    (q : String × α) (hq : q ∈ mdel m k) : q ∈ m := by
  induction m with
  | nil => simp [mdel] at hq
  | cons p ps ih =>
    by_cases hp : p.1 = k
    · rw [show mdel (p :: ps) k = mdel ps k from by
        simp [mdel, beq_iff_eq, hp]] at hq
      exact List.mem_cons_of_mem p (ih hq)
    · rw [show mdel (p :: ps) k = p :: mdel ps k from by
        simp [mdel, beq_iff_eq, hp]] at hq
      rcases List.mem_cons.mp hq with h | h
      · exact h ▸ List.mem_cons_self p ps
      · exact List.mem_cons_of_mem p (ih h)

theorem nodup_keys_mset {α : Type} (m : List (String × α)) (k : String)
    (v : α) (hnd : (m.map (fun p => p.1)).Nodup) :
    ((mset m k v).map (fun p => p.1)).Nodup := by
  induction m with
  | nil => simp [mset]
  | cons p ps ih =>
    simp only [List.map_cons, List.nodup_cons] at hnd
    by_cases hp : p.1 = k
    · rw [show mset (p :: ps) k v = (k, v) :: ps from by
        simp [mset, beq_iff_eq, hp]]
      simp only [List.map_cons, List.nodup_cons]
      exact ⟨by rw [← hp]; exact hnd.1, hnd.2⟩
    · rw [show mset (p :: ps) k v = p :: mset ps k v from by
        simp [mset, beq_iff_eq, hp]]
      simp only [List.map_cons, List.nodup_cons]
      refine ⟨?_, ih hnd.2⟩
      intro hmem
      rcases List.mem_map.mp hmem with ⟨q, hq, hq1⟩
      rcases mem_mset _ _ _ _ hq with h | h
      · exact hnd.1 (List.mem_map.mpr ⟨q, h, hq1⟩)
      · apply hp
        rw [← hq1, h]

theorem nodup_keys_mdel {α : Type} (m : List (String × α)) (k : String)
    (hnd : (m.map (fun p => p.1)).Nodup) :
    ((mdel m k).map (fun p => p.1)).Nodup := by
  induction m with
  | nil => simp [mdel]
  | cons p ps ih =>
    simp only [List.map_cons, List.nodup_cons] at hnd
    by_cases hp : p.1 = k
    · rw [show mdel (p :: ps) k = mdel ps k from by
        simp [mdel, beq_iff_eq, hp]]
      exact ih hnd.2
    · rw [show mdel (p :: ps) k = p :: mdel ps k from by
        simp [mdel, beq_iff_eq, hp]]
      simp only [List.map_cons, List.nodup_cons]
      refine ⟨?_, ih hnd.2⟩
      intro hmem
      rcases List.mem_map.mp hmem with ⟨q, hq, hq1⟩
      exact hnd.1 (List.mem_map.mpr ⟨q, mem_mdel _ _ _ hq, hq1⟩)

theorem mset_ne_nil {α : Type} (m : List (String × α)) (k : String) (v : α) :
    mset m k v ≠ [] := by
  cases m with
  | nil => simp [mset]
  | cons p ps =>
    by_cases hp : p.1 = k
    · rw [show mset (p :: ps) k v = (k, v) :: ps from by
        simp [mset, beq_iff_eq, hp]]
      simp
    · rw [show mset (p :: ps) k v = p :: mset ps k v from by
        simp [mset, beq_iff_eq, hp]]
      simp

theorem applyBatch_cons (cache : List (String × SPNote))
    (p : String × Option SPNote) (ps : List (String × Option SPNote)) :
    applyBatch cache (p :: ps) = applyBatch (applyChange cache p.1 p.2) ps :=
  rfl

theorem mget_applyBatch (batch : List (String × Option SPNote))
    (cache : List (String × SPNote)) (k : String)
    (hnd : (batch.map (fun p => p.1)).Nodup) :
    mget (applyBatch cache batch) k =
      match mget batch k with
      | some (some n) => some n
      | some none => none
      | none => mget cache k := by
  induction batch generalizing cache with
  | nil => simp [applyBatch, mget]
  | cons p ps ih =>
    simp only [List.map_cons, List.nodup_cons] at hnd
    rw [applyBatch_cons, ih _ hnd.2]
    by_cases hk : p.1 = k
    · have hnone : mget ps k = none := by
        rw [mget_eq_none_iff]
        intro q hq hq1
        exact hnd.1 (List.mem_map.mpr ⟨q, hq, by rw [hq1, ← hk]⟩)
      have hcons : mget (p :: ps) k = some p.2 := by
        simp [mget, beq_iff_eq, hk]
      rw [hnone, hcons]
      cases hn : p.2 with
      | none => simp [applyChange, mget_mdel, hk]
      | some n => simp [applyChange, mget_mset, hk]
    · have hcons : mget (p :: ps) k = mget ps k := by
        simp [mget, beq_iff_eq, hk]
      rw [hcons]
      have hfall : mget (applyChange cache p.1 p.2) k = mget cache k := by
        cases p.2 with
        | none => simp [applyChange, mget_mdel, Ne.symm hk]
        | some n => simp [applyChange, mget_mset, Ne.symm hk]
      rw [hfall]

theorem WFCache_mset (cache : List (String × SPNote)) (k : String)
    (note : SPNote) (h : WFCache cache) (hb : note.barcode = k)
    (hn : normalize k = k) (hne : k ≠ "") : WFCache (mset cache k note) := by
  constructor
  · intro p hp
    rcases mem_mset _ _ _ _ hp with hm | hm
    · exact h.1 p hm
    · rw [hm]
      exact ⟨hb, hn, hne⟩
  · exact nodup_keys_mset _ _ _ h.2

theorem WFCache_mdel (cache : List (String × SPNote)) (k : String)
    (h : WFCache cache) : WFCache (mdel cache k) :=
  ⟨fun p hp => h.1 p (mem_mdel _ _ _ hp), nodup_keys_mdel _ _ h.2⟩

theorem WFCache_applyBatch (batch : List (String × Option SPNote))
    (cache : List (String × SPNote)) (hc : WFCache cache)
    (hq : ∀ p ∈ batch, p.2.all (fun n => n.barcode == p.1) = true ∧
        normalize p.1 = p.1 ∧ p.1 ≠ "") :
    WFCache (applyBatch cache batch) := by
  induction batch generalizing cache with
  | nil => exact hc
  | cons p ps ih =>
    rw [applyBatch_cons]
    apply ih
    · have hp := hq p (List.mem_cons_self p ps)
      cases hn : p.2 with
      | none => exact WFCache_mdel cache p.1 hc
      | some n =>
        have hb : n.barcode = p.1 := by
          have hall := hp.1
          rw [hn] at hall
          simpa using hall
        exact WFCache_mset cache p.1 n hc hb hp.2.1 hp.2.2
    · intro q hqmem
      exact hq q (List.mem_cons_of_mem p hqmem)

theorem mget_requeue_aux (batch : List (String × Option SPNote))
    (q : List (String × Option SPNote)) (k : String)
    (hnd : (batch.map (fun p => p.1)).Nodup) :
    mget (batch.foldl (fun q p => mset q p.1 p.2) q) k =
      match mget batch k with
      | some v => some v
      | none => mget q k := by
  induction batch generalizing q with
  | nil => simp [mget]
  | cons p ps ih =>
    simp only [List.map_cons, List.nodup_cons] at hnd
    simp only [List.foldl_cons]
    rw [ih _ hnd.2]
    by_cases hk : p.1 = k
    · have hnone : mget ps k = none := by
        rw [mget_eq_none_iff]
        intro x hx hx1
        exact hnd.1 (List.mem_map.mpr ⟨x, hx, by rw [hx1, ← hk]⟩)
      have hcons : mget (p :: ps) k = some p.2 := by
        simp [mget, beq_iff_eq, hk]
      rw [hnone, hcons, mget_mset, if_pos hk.symm]
    · have hcons : mget (p :: ps) k = mget ps k := by
        simp [mget, beq_iff_eq, hk]
      rw [hcons]
      cases hm : mget ps k with
      | some v => rfl
      | none => rw [mget_mset, if_neg (Ne.symm hk)]

theorem mget_requeue (batch : List (String × Option SPNote)) (k : String)
    (hnd : (batch.map (fun p => p.1)).Nodup) :
    mget (requeue batch) k = mget batch k := by
  have h := mget_requeue_aux batch [] k hnd
  rw [requeue]
  rw [h]
  cases hm : mget batch k with
  | some v => rfl
  | none => simp [mget]

theorem requeue_props (batch : List (String × Option SPNote))
    (P : String × Option SPNote → Prop) (hb : ∀ p ∈ batch, P p) :
    ∀ p ∈ requeue batch, P p := by
  have haux : ∀ (l : List (String × Option SPNote))
      (q : List (String × Option SPNote)), (∀ p ∈ l, P p) → (∀ p ∈ q, P p) →
      ∀ p ∈ l.foldl (fun q p => mset q p.1 p.2) q, P p := by
    intro l
    induction l with
    | nil => intro q _ hq; exact hq
    | cons x xs ih =>
      intro q hl hq
      simp only [List.foldl_cons]
      apply ih
      · intro p hp
        exact hl p (List.mem_cons_of_mem x hp)
      · intro p hp
        rcases mem_mset _ _ _ _ hp with h | h
        · exact hq p h
        · rw [h]
          exact hl x (List.mem_cons_self x xs)
  exact haux batch [] hb (by simp)

theorem nodup_keys_requeue (batch : List (String × Option SPNote)) :
    ((requeue batch).map (fun p => p.1)).Nodup := by
  have haux : ∀ (l : List (String × Option SPNote))
      (q : List (String × Option SPNote)),
      ((q.map (fun p => p.1)).Nodup) →
      (((l.foldl (fun q p => mset q p.1 p.2) q).map (fun p => p.1)).Nodup) := by
    intro l
    induction l with
    | nil => intro q hq; exact hq
    | cons x xs ih =>
      intro q hq
      simp only [List.foldl_cons]
      exact ih _ (nodup_keys_mset _ _ _ hq)
  exact haux batch [] (by simp)

theorem foldl_mset_ne_nil (l : List (String × Option SPNote))
    (q : List (String × Option SPNote)) (hq : q ≠ [] ∨ l ≠ []) :
    l.foldl (fun q p => mset q p.1 p.2) q ≠ [] := by
  induction l generalizing q with
  | nil =>
    rcases hq with h | h
    · exact h
    · exact absurd rfl h
  | cons x xs ih =>
    simp only [List.foldl_cons]
    exact ih _ (Or.inl (mset_ne_nil _ _ _))

theorem requeue_ne_nil (batch : List (String × Option SPNote))
    (h : batch ≠ []) : requeue batch ≠ [] :=
  foldl_mset_ne_nil batch [] (Or.inr h)

theorem loadedMap_aux (cache : List (String × SPNote)) (k : String)
    (m : List (String × SPNote))
    (hwf : ∀ p ∈ cache, p.2.barcode = p.1 ∧ normalize p.1 = p.1 ∧ p.1 ≠ "")
    (hnd : (cache.map (fun p => p.1)).Nodup) :
    mget ((cacheRows cache).foldl (fun m row =>
      let shaped := noteShape row
      if shaped.barcode ≠ "" then mset m shaped.barcode shaped else m) m) k =
      match mget cache k with
      | some n => some (noteShape n)
      | none => mget m k := by
  induction cache generalizing m with
  | nil => simp [cacheRows, mget]
  | cons p ps ih =>
    simp only [List.map_cons, List.nodup_cons] at hnd
    have hwfp := hwf p (List.mem_cons_self p ps)
    have hwfs : ∀ q ∈ ps, q.2.barcode = q.1 ∧ normalize q.1 = q.1 ∧ q.1 ≠ "" :=
      fun q hq => hwf q (List.mem_cons_of_mem p hq)
    have hshape : (noteShape p.2).barcode = p.1 := by
      show normalize p.2.barcode = p.1
      rw [hwfp.1]
      exact hwfp.2.1
    have hrows : cacheRows (p :: ps) = p.2 :: cacheRows ps := rfl
    rw [hrows]
    simp only [List.foldl_cons]
    have hstep : (if (noteShape p.2).barcode ≠ "" then
        mset m (noteShape p.2).barcode (noteShape p.2) else m) =
        mset m p.1 (noteShape p.2) := by
      rw [hshape, if_pos hwfp.2.2]
    rw [hstep, ih _ hwfs hnd.2]
    by_cases hk : p.1 = k
    · have hnone : mget ps k = none := by
        rw [mget_eq_none_iff]
        intro q hq hq1
        exact hnd.1 (List.mem_map.mpr ⟨q, hq, by rw [hq1, ← hk]⟩)
      have hcons : mget (p :: ps) k = some p.2 := by
        simp [mget, beq_iff_eq, hk]
      rw [hnone, hcons, mget_mset, if_pos hk.symm]
    · have hcons : mget (p :: ps) k = mget ps k := by
        simp [mget, beq_iff_eq, hk]
      rw [hcons]
      cases hm : mget ps k with
      | some n => rfl
      | none => rw [mget_mset, if_neg (Ne.symm hk)]

theorem mget_loadedMap_cacheRows (cache : List (String × SPNote)) (k : String)
    (hwf : ∀ p ∈ cache, p.2.barcode = p.1 ∧ normalize p.1 = p.1 ∧ p.1 ≠ "")
    (hnd : (cache.map (fun p => p.1)).Nodup) :
    mget (loadedMap (cacheRows cache)) k =
      match mget cache k with
      | some n => some (noteShape n)
      | none => none := by
  have h := loadedMap_aux cache k [] hwf hnd
  rw [show loadedMap (cacheRows cache) = (cacheRows cache).foldl (fun m row =>
    let shaped := noteShape row
    if shaped.barcode ≠ "" then mset m shaped.barcode shaped else m) []
    from rfl]
  rw [h]
  cases hm : mget cache k with
  | some n => rfl
  | none => simp [mget]

/-- Fixture store: one persisted note for key `"B"` with
`meetingNote = "old"` and `requiresFollowUp = "keep"`, no pending changes. -/
def cexStore : SPState :=
  ⟨[("B", ⟨"B", "old", "keep", "t0"⟩)], [], false,
   some [⟨"B", "old", "keep", "t0"⟩]⟩

/-- Counterexample to C4 as stated: starting from a store whose record for
`"B"` has `followUpNote = "keep"`, calling `update("B", "note", undefined)`,
flushing successfully and re-loading yields `followUpNote = ""` — the
omitted field is reset, not left unchanged. -/
theorem updateNote_overwrites_cex :
    ((mget (loadAllNotes (saveToSharePoint
        (updateNote cexStore "B" (some "note") none "t1").2
        FlushOutcome.ok)).2 "B").map SPNote.requiresFollowUp = some "") ∧
    ¬((mget (loadAllNotes (saveToSharePoint
        (updateNote cexStore "B" (some "note") none "t1").2
        FlushOutcome.ok)).2 "B").map SPNote.requiresFollowUp = some "keep") := by
  decide

/-- C4 (amended). `updateNote(bc, d, f)` replaces the record for
`key = normalize bc` wholesale: a supplied field is stored, an **omitted
(`undefined`) field is stored as `""` (not left unchanged)**, and
`lastUpdated` is stamped; the new record is returned, cached and queued.
After a successful flush, a fresh `loadAll` yields the new record with both
note fields trimmed — in particular `discussionNote = "note"` and
`followUpNote = ""` after `update(bc, "note", undefined)`. Stated for
reachable (well-formed) stores with a non-empty normalized key. -/
theorem updateNote_replace_and_durable (st : SPState) (bc : String)
    (m f : Option String) (nowIso : String) (hwf : WFState st)
    (hsv : st.isSaving = false) (hk : normalize bc ≠ "") :
    (updateNote st bc m f nowIso).1 =
      some ⟨normalize bc, jsOrOpt m "", jsOrOpt f "", nowIso⟩ ∧
    mget (updateNote st bc m f nowIso).2.notesCache (normalize bc) =
      some ⟨normalize bc, jsOrOpt m "", jsOrOpt f "", nowIso⟩ ∧
    mget (updateNote st bc m f nowIso).2.saveQueue (normalize bc) =
      some (some ⟨normalize bc, jsOrOpt m "", jsOrOpt f "", nowIso⟩) ∧
    mget (loadAllNotes (saveToSharePoint (updateNote st bc m f nowIso).2
        FlushOutcome.ok)).2 (normalize bc) =
      some ⟨normalize bc, jsTrim (jsOrOpt m ""), jsTrim (jsOrOpt f ""),
        nowIso⟩ := by
  have hkey : normalize (normalize bc) = normalize bc := normalize_idem bc
  have hst1 : (updateNote st bc m f nowIso).2 =
      { st with
        notesCache := mset st.notesCache (normalize bc)
          ⟨normalize bc, jsOrOpt m "", jsOrOpt f "", nowIso⟩
        saveQueue := mset st.saveQueue (normalize bc)
          (some ⟨normalize bc, jsOrOpt m "", jsOrOpt f "", nowIso⟩) } := by
    rw [updateNote]
    simp only [if_neg hk]
  refine ⟨?_, ?_, ?_, ?_⟩
  · rw [updateNote]
    simp only [if_neg hk]
  · rw [hst1]
    simp [mget_mset]
  · rw [hst1]
    simp [mget_mset]
  · rw [hst1]
    have hqne : ((mset st.saveQueue (normalize bc)
        (some ⟨normalize bc, jsOrOpt m "", jsOrOpt f "", nowIso⟩)).isEmpty) =
        false := by
      cases hq : mset st.saveQueue (normalize bc)
          (some ⟨normalize bc, jsOrOpt m "", jsOrOpt f "", nowIso⟩) with
      | nil => exact absurd hq (mset_ne_nil _ _ _)
      | cons a l => rfl
    rw [saveToSharePoint]
    simp only [hqne, hsv, Bool.false_eq_true, if_false]
    have hbatchwf : ∀ p ∈ mset st.saveQueue (normalize bc)
        (some ⟨normalize bc, jsOrOpt m "", jsOrOpt f "", nowIso⟩),
        p.2.all (fun n => n.barcode == p.1) = true ∧
          normalize p.1 = p.1 ∧ p.1 ≠ "" := by
      intro p hp
      rcases mem_mset _ _ _ _ hp with h | h
      · exact hwf.2.1 p h
      · rw [h]
        exact ⟨by simp, hkey, hk⟩
    have hbatchnd := nodup_keys_mset st.saveQueue (normalize bc)
      (some ⟨normalize bc, jsOrOpt m "", jsOrOpt f "", nowIso⟩) hwf.2.2
    have hc1 : WFCache (applyBatch
        (mset st.notesCache (normalize bc)
          ⟨normalize bc, jsOrOpt m "", jsOrOpt f "", nowIso⟩)
        (mset st.saveQueue (normalize bc)
          (some ⟨normalize bc, jsOrOpt m "", jsOrOpt f "", nowIso⟩))) :=
      WFCache_applyBatch _ _
        (WFCache_mset _ _ _ hwf.1 rfl hkey hk) hbatchwf
    have hget1 : mget (applyBatch
        (mset st.notesCache (normalize bc)
          ⟨normalize bc, jsOrOpt m "", jsOrOpt f "", nowIso⟩)
        (mset st.saveQueue (normalize bc)
          (some ⟨normalize bc, jsOrOpt m "", jsOrOpt f "", nowIso⟩)))
        (normalize bc) =
        some ⟨normalize bc, jsOrOpt m "", jsOrOpt f "", nowIso⟩ := by
      rw [mget_applyBatch _ _ _ hbatchnd, mget_mset, if_pos rfl]
    rw [loadAllNotes]
    simp only []
    rw [mget_loadedMap_cacheRows _ _ hc1.1 hc1.2, hget1]
    show some (noteShape ⟨normalize bc, jsOrOpt m "", jsOrOpt f "", nowIso⟩) =
      _
    rw [noteShape]
    simp only [hkey]

/-- Witness for the amended C4 at a concrete input: after
`update("B", "note", undefined)`, flush, and reload, the stored record is
`{barcode: "B", discussionNote: "note", followUpNote: "", lastUpdated: "t1"}`. -/
theorem updateNote_replace_and_durable_witness :
    mget (loadAllNotes (saveToSharePoint
        (updateNote cexStore "B" (some "note") none "t1").2
        FlushOutcome.ok)).2 "B" = some ⟨"B", "note", "", "t1"⟩ := by
  have h := updateNote_replace_and_durable cexStore "B" (some "note") none
    "t1" ⟨⟨by decide, by decide⟩, by decide, by decide⟩ rfl (by decide)
  exact h.2.2.2

/-- C5. If the flush's upload rejects, every change pending at the start of
that flush is re-queued rather than lost: a subsequent flush whose upload
succeeds still persists each originally-queued change — a queued update's
note row is in the uploaded rows, and a queued deletion's key is absent from
them. Stated for reachable (well-formed) stores with no save in flight. -/
theorem flush_requeue_durable (st : SPState) (hwf : WFState st)
    (hsv : st.isSaving = false) (k : String) (ch : Option SPNote)
    (hch : mget st.saveQueue k = some ch) :
    ∃ rows, (saveToSharePoint (saveToSharePoint st FlushOutcome.fail)
        FlushOutcome.ok).remote = some rows ∧
      (∀ n, ch = some n → n ∈ rows) ∧
      (ch = none → ∀ row ∈ rows, row.barcode ≠ k) := by
  have hqne : st.saveQueue ≠ [] := by
    intro h
    rw [h] at hch
    simp [mget] at hch
  have hqe : st.saveQueue.isEmpty = false := by
    cases hq : st.saveQueue with
    | nil => exact absurd hq hqne
    | cons a l => rfl
  have hst1 : saveToSharePoint st FlushOutcome.fail =
      ⟨applyBatch st.notesCache st.saveQueue, requeue st.saveQueue, false,
        st.remote⟩ := by
    rw [saveToSharePoint]
    simp only [hqe, hsv, Bool.false_eq_true, if_false]
  rw [hst1]
  have hq1ne : requeue st.saveQueue ≠ [] := requeue_ne_nil _ hqne
  have hq1e : (requeue st.saveQueue).isEmpty = false := by
    cases hq : requeue st.saveQueue with
    | nil => exact absurd hq hq1ne
    | cons a l => rfl
  have hst2 : saveToSharePoint (⟨applyBatch st.notesCache st.saveQueue,
      requeue st.saveQueue, false, st.remote⟩ : SPState) FlushOutcome.ok =
      ⟨applyBatch (applyBatch st.notesCache st.saveQueue)
          (requeue st.saveQueue), [], false,
        some (cacheRows (applyBatch (applyBatch st.notesCache st.saveQueue)
          (requeue st.saveQueue)))⟩ := by
    rw [saveToSharePoint]
    simp only [hq1e, Bool.false_eq_true, if_false]
  rw [hst2]
  refine ⟨_, rfl, ?_, ?_⟩
  all_goals
    have hbnd := hwf.2.2
    have hrnd := nodup_keys_requeue st.saveQueue
    have hrget : mget (requeue st.saveQueue) k = some ch := by
      rw [mget_requeue _ _ hbnd]
      exact hch
    have hcache1wf : WFCache (applyBatch st.notesCache st.saveQueue) :=
      WFCache_applyBatch _ _ hwf.1 hwf.2.1
    have hrprops : ∀ p ∈ requeue st.saveQueue,
        p.2.all (fun n => n.barcode == p.1) = true ∧
          normalize p.1 = p.1 ∧ p.1 ≠ "" :=
      requeue_props _ _ hwf.2.1
    have hcache2wf : WFCache (applyBatch
        (applyBatch st.notesCache st.saveQueue) (requeue st.saveQueue)) :=
      WFCache_applyBatch _ _ hcache1wf hrprops
    have hget2 : mget (applyBatch (applyBatch st.notesCache st.saveQueue)
        (requeue st.saveQueue)) k = ch := by
      rw [mget_applyBatch _ _ _ hrnd, hrget]
      cases ch <;> rfl
  · intro n hn
    rw [hn] at hget2
    have hmem := mget_some_mem _ _ _ hget2
    exact List.mem_map.mpr ⟨(k, n), hmem, rfl⟩
  · intro hn row hrow
    rw [hn] at hget2
    rcases List.mem_map.mp hrow with ⟨p, hp, hpr⟩
    have hbar := (hcache2wf.1 p hp).1
    have hkne : p.1 ≠ k := (mget_eq_none_iff _ _).mp hget2 p hp
    rw [← hpr, hbar]
    exact hkne

/-- Fixture store with one queued (unflushed) note update and no remote
artifact yet. -/
def cexStore5 : SPState :=
  ⟨[], [("B", some ⟨"B", "n", "f", "t"⟩)], false, none⟩

/-- Witness for C5 at a concrete input: the note queued before a failed
flush is present in the rows uploaded by the subsequent successful flush. -/
theorem flush_requeue_durable_witness :
    ∃ rows, (saveToSharePoint (saveToSharePoint cexStore5 FlushOutcome.fail)
        FlushOutcome.ok).remote = some rows ∧
      (⟨"B", "n", "f", "t"⟩ : SPNote) ∈ rows := by
  have h := flush_requeue_durable cexStore5
    ⟨⟨by decide, by decide⟩, by decide, by decide⟩ rfl "B"
    (some ⟨"B", "n", "f", "t"⟩) (by decide)
  rcases h with ⟨rows, h1, h2, h3⟩
  exact ⟨rows, h1, h2 _ rfl⟩
